import Mathlib

/-!
Shallow embedding of the fuzzy-matching and candidate-scoring core of the
`format_audio_meta_data` repository.

Strings are modelled as `List Char`.  The Python standard-library helpers the
code calls (`unicodedata.normalize('NFKC', ·)`, `str.lower`, `re.sub`,
`str.strip`, `os.path.basename`, `in` on strings, `max(key=·)`,
`list.sort(key=·, reverse=True)`) are modelled explicitly below; character
classes (`\w`, `\s`, upper/lower case) are modelled on the ASCII range plus
the full-width block that the NFKC step folds away, which covers every input
exercised by the claims.  Python float arithmetic is modelled with `ℚ`.
-/

abbrev Str := List Char

def chSp : Char := Char.ofNat 32

def chTab : Char := Char.ofNat 9

def chLF : Char := Char.ofNat 10

def chVT : Char := Char.ofNat 11

def chFF : Char := Char.ofNat 12

def chCR : Char := Char.ofNat 13

def chUnder : Char := Char.ofNat 95

def chSlash : Char := Char.ofNat 47

/-- Model of Python's whitespace class `\s` (ASCII part): space, tab,
newline, vertical tab, form feed, carriage return. -/
def pyIsSpace (c : Char) : Bool :=
  c == chSp || c == chTab || c == chLF || c == chVT || c == chFF || c == chCR

/-- Model of Python's word-character class `\w` (ASCII part):
alphanumeric characters and the underscore. -/
def pyIsWordChar (c : Char) : Bool := c.isAlphanum || c == chUnder

/-- The characters kept by `re.sub(r'[^\w\s]', '', ·)` in `normalize_text`
(`update_composer.py` line 170): word characters and whitespace. -/
def isKeptChar (c : Char) : Bool := pyIsWordChar c || pyIsSpace c

/-- Model of Python `str.lower` on one character (ASCII range). -/
def pyToLower (c : Char) : Char :=
  if 65 ≤ c.toNat ∧ c.toNat ≤ 90 then Char.ofNat (c.toNat + 32) else c

/-- Model of `unicodedata.normalize('NFKC', ·)` on one character, restricted
to the width folding the code relies on (`update_composer.py` line 162,
comment: fold full-width alphanumerics to half width): the full-width ASCII
block U+FF01–U+FF5E maps to U+0021–U+007E, the ideographic space U+3000 maps
to the ASCII space, everything else is unchanged. -/
def nfkcChar (c : Char) : Char :=
  if 0xFF01 ≤ c.toNat ∧ c.toNat ≤ 0xFF5E then Char.ofNat (c.toNat - 0xFEE0)
  else if c.toNat = 0x3000 then chSp
  else c

/-- Model of Python `str.lower` (`update_composer.py` line 164). -/
def pyLower (s : Str) : Str := s.map pyToLower

/-- Model of `re.sub(r'\s+', ' ', ·)` (`update_composer.py` line 166):
every maximal run of whitespace characters is replaced by a single space. -/
def collapseWS : Str → Str
  | [] => []
  | [c] => if pyIsSpace c then [chSp] else [c]
  | c :: d :: rest =>
    if pyIsSpace c then
      if pyIsSpace d then collapseWS (d :: rest) else chSp :: collapseWS (d :: rest)
    else c :: collapseWS (d :: rest)

/-- Model of Python `str.strip()` (`update_composer.py` line 168): drop
leading and trailing whitespace. -/
def pyStrip (s : Str) : Str :=
  ((s.dropWhile pyIsSpace).reverse.dropWhile pyIsSpace).reverse

/-- `normalize_text` (`update_composer.py` lines 157–171): NFKC width
folding, lower-casing, whitespace collapsing, stripping, then removal of
every character that is neither a word character nor whitespace.  Empty
(falsy) input short-circuits to the empty string. -/
def normalizeText (t : Str) : Str :=
  if t = [] then []
  else (pyStrip (collapseWS (pyLower (t.map nfkcChar)))).filter isKeptChar

/-- `s` is a prefix of `t`, as a computable Bool (helper for `isSubstr`). -/
def isPrefixL : Str → Str → Bool
  | [], _ => true
  | _ :: _, [] => false
  | a :: s, b :: t => a == b && isPrefixL s t

/-- Model of Python's `a in b` on strings: `isSubstr a b` holds when `a`
occurs contiguously inside `b` (the empty string occurs in everything). -/
def isSubstr (s : Str) : Str → Bool
  | [] => s.isEmpty
  | b :: t => isPrefixL s (b :: t) || isSubstr s t

/-- `_calculate_similarity_ratio` (`update_composer.py` lines 210–242):
0 when either argument is empty, otherwise the mean of the Jaccard
coefficient of the two character sets and the length ratio
min length / max length. -/
def similarityRatio (text1 text2 : Str) : ℚ :=
  if text1 = [] ∨ text2 = [] then 0
  else if text1.toFinset ∪ text2.toFinset = ∅ then 0
  else (((text1.toFinset ∩ text2.toFinset).card : ℚ)
          / ((text1.toFinset ∪ text2.toFinset).card : ℚ)
        + ((min text1.length text2.length : ℕ) : ℚ)
          / ((max text1.length text2.length : ℕ) : ℚ)) / 2

/-- One scraped credit record (`tower_records_scraper` output dict): an
optional title, an optional track number, and an open role-label → names
mapping; a missing key read through `dict.get(k, '')` yields the empty
string, modelled by `Option.getD []`. -/
structure Credit where
  title : Option Str
  track_number : Option Str
  roles : List (Str × Str)
deriving DecidableEq

def getTitle (c : Credit) : Str := c.title.getD []

def getTrackNumber (c : Credit) : Str := c.track_number.getD []

/-- The exact-match loop of `_find_matching_track_credit`
(`update_composer.py` lines 177–181): first credit whose normalized title
equals the normalized target title. -/
def exactTier (nt : Str) : List Credit → Option Credit
  | [] => none
  | c :: rest => if normalizeText (getTitle c) = nt then some c else exactTier nt rest

/-- The second loop of `_find_matching_track_credit` (`update_composer.py`
lines 184–197): one pass over the credits; for each credit with non-empty
normalized title the similarity threshold 0.8 is checked first, then the
two-sided substring check, and the first credit passing either test is
returned. -/
def fuzzyTier (nt : Str) : List Credit → Option Credit
  | [] => none
  | c :: rest =>
    if normalizeText (getTitle c) = [] then fuzzyTier nt rest
    else if (4 : ℚ)/5 ≤ similarityRatio nt (normalizeText (getTitle c)) then some c
    else if isSubstr nt (normalizeText (getTitle c))
            || isSubstr (normalizeText (getTitle c)) nt then some c
    else fuzzyTier nt rest

def numberLoop (ds : Str) : List Credit → Option Credit
  | [] => none
  | c :: rest => if getTrackNumber c = ds then some c else numberLoop ds rest

/-- The track-number fallback of `_find_matching_track_credit`
(`update_composer.py` lines 200–206): `re.search(r'^(\d+)', ·)` extracts the
leading digit run of the raw target title; if present, the first credit
whose raw `track_number` equals it is returned. -/
def numberTier (trackTitle : Str) (credits : List Credit) : Option Credit :=
  if trackTitle.takeWhile Char.isDigit = [] then none
  else numberLoop (trackTitle.takeWhile Char.isDigit) credits

/-- `_find_matching_track_credit` (`update_composer.py` lines 140–208):
falsy target title or empty credit list short-circuit to `none`; otherwise
the exact loop, then the similarity/substring loop, then the track-number
fallback. -/
def findMatch (trackTitle : Str) (credits : List Credit) : Option Credit :=
  if trackTitle = [] ∨ credits = [] then none
  else
    match exactTier (normalizeText trackTitle) credits with
    | some c => some c
    | none =>
      match fuzzyTier (normalizeText trackTitle) credits with
      | some c => some c
      | none => numberTier trackTitle credits

/-- One track's tag metadata as consumed by `_calculate_artwork_score`
(which reads only the `artist` field through `meta.get('artist', '')`). -/
structure TrackMeta where
  artist : Option Str
deriving DecidableEq

def getArtist (m : TrackMeta) : Str := m.artist.getD []

/-- Model of `os.path.basename`: the part of the path after the last
path separator. -/
def basename (path : Str) : Str :=
  (path.reverse.takeWhile (fun c => !(c == chSlash))).reverse

/-- `_calculate_artwork_score` (`update_album_artworks.py` lines 324–361):
+100 when the lower-cased artist name is non-empty and occurs in the
lower-cased artwork file name, +100 likewise for the album name,
+10 per related track, then +50 when every related track's artist matches
the artist name case-insensitively, or else +30 when at least 80% do
(the 0.8 factor, a Python float, is modelled as the rational 4/5). -/
def calculate_artwork_score (artwork_path album_name artist_name : Str)
    (metadata_list : List TrackMeta) : ℤ :=
  (if artist_name ≠ [] ∧ isSubstr (pyLower artist_name) (pyLower (basename artwork_path)) = true
    then 100 else 0)
  + (if album_name ≠ [] ∧ isSubstr (pyLower album_name) (pyLower (basename artwork_path)) = true
    then 100 else 0)
  + (metadata_list.length : ℤ) * 10
  + (if artist_name ≠ [] then
      (if (metadata_list.filter
            (fun m => decide (pyLower (getArtist m) = pyLower artist_name))).length
          = metadata_list.length then 50
       else if ((metadata_list.length : ℚ) * (4/5)
            ≤ ((metadata_list.filter
                (fun m => decide (pyLower (getArtist m) = pyLower artist_name))).length : ℚ))
         then 30
       else 0)
     else 0)

/-- The accumulator loop of Python's `max(xs, key=score)`: the current
best is replaced only when a later item's score is strictly greater, so the
first maximal item wins. -/
def pymaxGo {α : Type} (score : α → ℤ) : α → List α → α
  | b, [] => b
  | b, a :: as => pymaxGo score (if score b < score a then a else b) as

/-- Model of `max(all_artworks, key=lambda x: x['score'])` in
`_collect_and_select_best_artwork` (`update_album_artworks.py` lines
288–295), together with the `if not all_artworks: return None` guard. -/
def pymax {α : Type} (score : α → ℤ) : List α → Option α
  | [] => none
  | x :: xs => some (pymaxGo score x xs)

/-- Stable descending insertion: a new item is placed before the first
already-placed item of strictly smaller score, hence after every
already-placed item of equal score (Python's `list.sort` is stable, and
`reverse=True` keeps equal elements in original order). -/
def insertDesc {α : Type} (score : α → ℤ) (a : α) : List α → List α
  | [] => [a]
  | b :: bs => if score b < score a then a :: b :: bs else b :: insertDesc score a bs

/-- Model of `scored_results.sort(key=lambda x: x[1], reverse=True)` in
`_select_best_match` (`src/fetch_itunes_artwork.py` lines 199–200): a stable
descending sort by score. -/
def sortDesc {α : Type} (score : α → ℤ) (l : List α) : List α :=
  l.foldl (fun acc a => insertDesc score a acc) []

/-- `_select_best_match`'s ranking path (`src/fetch_itunes_artwork.py`
lines 155–211): `None` on an empty result list, otherwise the head of the
stable descending sort (`scored_results[0][0]`); the per-candidate score
function is passed explicitly. -/
def select_best_match {α : Type} (score : α → ℤ) (results : List α) : Option α :=
  match results with
  | [] => none
  | _ :: _ => (sortDesc score results).head?

/-- The per-candidate test of the second matcher loop: non-empty normalized
title, and similarity at least 0.8 or a substring relation either way. -/
def fuzzyPred (nt : Str) (c : Credit) : Bool :=
  !decide (normalizeText (getTitle c) = []) &&
    (decide ((4 : ℚ)/5 ≤ similarityRatio nt (normalizeText (getTitle c)))
      || isSubstr nt (normalizeText (getTitle c))
      || isSubstr (normalizeText (getTitle c)) nt)

/-- Whitespace-clean lists: every whitespace character is the plain space
and no two adjacent characters are both whitespace.  This is the shape
`collapseWS` produces. -/
def SpaceOK (l : Str) : Prop :=
  (∀ c ∈ l, pyIsSpace c = true → c = chSp) ∧
    List.Chain' (fun a b => ¬(pyIsSpace a = true ∧ pyIsSpace b = true)) l

/-- Target title of the interleaving example: ten distinct letters. -/
def tgtC1 : Str := "abcdefghij".toList

/-- A credit whose normalized title contains the target as a substring but
scores only (10/26 + 10/26)/2 = 5/13 < 0.8 in similarity. -/
def credSub : Credit := ⟨some "abcdefghijklmnopqrstuvwxyz".toList, none, []⟩

/-- A credit whose normalized title differs from the target in one letter
and scores (9/11 + 1)/2 = 10/11 ≥ 0.8 in similarity. -/
def credSim : Credit := ⟨some "abcdefghik".toList, none, []⟩

/-- Artwork-scorer example inputs from the specification. -/
def qPath : Str := "Queen_A_Night_At_The_Opera.jpg".toList

def qAlbum : Str := "A Night at the Opera".toList

def qArtist : Str := "Queen".toList

def qMetas : List TrackMeta := List.replicate 5 ⟨some "Queen".toList⟩

/-! ### Helper lemmas about the matcher loops -/

theorem exactTier_eq_find? (nt : Str) :
    ∀ cs : List Credit,
      exactTier nt cs = cs.find? (fun c => decide (normalizeText (getTitle c) = nt))
  | [] => rfl
  | c :: rest => by
    by_cases h : normalizeText (getTitle c) = nt
    · rw [exactTier, if_pos h, List.find?_cons_of_pos _ (by simpa using h)]
    · rw [exactTier, if_neg h, List.find?_cons_of_neg _ (by simpa using h),
        exactTier_eq_find? nt rest]

theorem fuzzyTier_eq_find? (nt : Str) :
    ∀ cs : List Credit, fuzzyTier nt cs = cs.find? (fuzzyPred nt)
  | [] => rfl
  | c :: rest => by
    by_cases h1 : normalizeText (getTitle c) = []
    · rw [fuzzyTier, if_pos h1, List.find?_cons_of_neg _ (by simp [fuzzyPred, h1]),
        fuzzyTier_eq_find? nt rest]
    · by_cases h2 : (4 : ℚ)/5 ≤ similarityRatio nt (normalizeText (getTitle c))
      · rw [fuzzyTier, if_neg h1, if_pos h2,
          List.find?_cons_of_pos _ (by simp [fuzzyPred, h1, h2])]
      · by_cases h3 : (isSubstr nt (normalizeText (getTitle c))
            || isSubstr (normalizeText (getTitle c)) nt) = true
        · have h3' : isSubstr nt (normalizeText (getTitle c)) = true
              ∨ isSubstr (normalizeText (getTitle c)) nt = true := by simpa using h3
          rcases h3' with h4 | h4
          · rw [fuzzyTier, if_neg h1, if_neg h2, if_pos h3,
              List.find?_cons_of_pos _ (by simp [fuzzyPred, h1, h4])]
          · rw [fuzzyTier, if_neg h1, if_neg h2, if_pos h3,
              List.find?_cons_of_pos _ (by simp [fuzzyPred, h1, h4])]
        · have h3' : isSubstr nt (normalizeText (getTitle c)) = false
              ∧ isSubstr (normalizeText (getTitle c)) nt = false := by
            constructor <;> (apply Bool.eq_false_iff.mpr; intro hx; exact h3 (by simp [hx]))
          rw [fuzzyTier, if_neg h1, if_neg h2, if_neg h3,
            List.find?_cons_of_neg _ (by simp [fuzzyPred, h1, h2, h3'.1, h3'.2]),
            fuzzyTier_eq_find? nt rest]

theorem exactTier_some {nt : Str} {cs : List Credit} {c : Credit}
    (h : exactTier nt cs = some c) : normalizeText (getTitle c) = nt := by
  rw [exactTier_eq_find?] at h
  simpa using List.find?_some h

theorem fuzzyTier_some_nonempty {nt : Str} {cs : List Credit} {c : Credit}
    (h : fuzzyTier nt cs = some c) : normalizeText (getTitle c) ≠ [] := by
  rw [fuzzyTier_eq_find?] at h
  have := List.find?_some h
  simp [fuzzyPred] at this
  exact this.1

theorem findMatch_eq (t : Str) (cs : List Credit) (h1 : t ≠ []) (h2 : cs ≠ []) :
    findMatch t cs =
      (match exactTier (normalizeText t) cs with
      | some c => some c
      | none =>
        match fuzzyTier (normalizeText t) cs with
        | some c => some c
        | none => numberTier t cs) := by
  rw [findMatch, if_neg (by simp [h1, h2])]

/-! ### Helper lemmas about the best-candidate selectors -/

theorem pymaxGo_append {α : Type} (score : α → ℤ) :
    ∀ (xs ys : List α) (b : α),
      pymaxGo score b (xs ++ ys) = pymaxGo score (pymaxGo score b xs) ys
  | [], _, _ => rfl
  | a :: xs, ys, b => by
    rw [List.cons_append, pymaxGo, pymaxGo, pymaxGo_append score xs ys]

theorem pymaxGo_le {α : Type} (score : α → ℤ) :
    ∀ (xs : List α) (b : α),
      score b ≤ score (pymaxGo score b xs) ∧
        ∀ y ∈ xs, score y ≤ score (pymaxGo score b xs)
  | [], b => ⟨le_refl _, by simp⟩
  | a :: xs, b => by
    have ih := pymaxGo_le score xs (if score b < score a then a else b)
    rw [pymaxGo]
    refine ⟨le_trans ?_ ih.1, ?_⟩
    · split
      · exact le_of_lt (by assumption)
      · exact le_refl _
    · intro y hy
      rcases List.mem_cons.mp hy with rfl | hy
      · refine le_trans ?_ ih.1
        split
        · exact le_refl _
        · exact le_of_not_lt (by assumption)
      · exact ih.2 y hy

theorem pymaxGo_find? {α : Type} (score : α → ℤ) :
    ∀ (xs : List α) (b : α),
      (b :: xs).find? (fun y => decide (score (pymaxGo score b xs) ≤ score y))
        = some (pymaxGo score b xs)
  | [], b => by simp [pymaxGo]
  | a :: xs, b => by
    rw [pymaxGo]
    by_cases hba : score b < score a
    · rw [if_pos hba]
      have ih := pymaxGo_find? score xs a
      have ha : score a ≤ score (pymaxGo score a xs) := (pymaxGo_le score xs a).1
      rw [List.find?_cons_of_neg _ (by simp; linarith), ih]
    · rw [if_neg hba]
      have ih := pymaxGo_find? score xs b
      by_cases hb : score (pymaxGo score b xs) ≤ score b
      · have : (b :: xs).find? (fun y => decide (score (pymaxGo score b xs) ≤ score y))
            = some b := List.find?_cons_of_pos _ (by simpa using hb)
        rw [this] at ih
        rw [List.find?_cons_of_pos _ (by simpa using hb), ih]
      · have hskip : (xs.find? fun y => decide (score (pymaxGo score b xs) ≤ score y))
            = some (pymaxGo score b xs) := by
          rw [List.find?_cons_of_neg _ (by simpa using hb)] at ih
          exact ih
        have hna : ¬ score (pymaxGo score b xs) ≤ score a := by
          intro hle
          exact hb (le_trans hle (le_of_not_lt hba))
        rw [List.find?_cons_of_neg _ (by simpa using hb),
          List.find?_cons_of_neg _ (by simpa using hna), hskip]

theorem sortDesc_append_singleton {α : Type} (score : α → ℤ) (l : List α) (a : α) :
    sortDesc score (l ++ [a]) = insertDesc score a (sortDesc score l) := by
  rw [sortDesc, List.foldl_append]
  rfl

theorem sortDesc_head? {α : Type} (score : α → ℤ) (l : List α) (h : l ≠ []) :
    (sortDesc score l).head? = pymax score l := by
  induction l using List.reverseRecOn with
  | nil => exact absurd rfl h
  | append_singleton l a ih =>
    rw [sortDesc_append_singleton]
    by_cases hl : l = []
    · subst hl; rfl
    · obtain ⟨x, xs, rfl⟩ : ∃ x xs, l = x :: xs := by
        cases l with
        | nil => exact absurd rfl hl
        | cons x xs => exact ⟨x, xs, rfl⟩
      have hhead := ih hl
      obtain ⟨t, ht⟩ : ∃ t, sortDesc score (x :: xs) = pymaxGo score x xs :: t := by
        cases hs : sortDesc score (x :: xs) with
        | nil => rw [hs] at hhead; simp [pymax] at hhead
        | cons r tl =>
          rw [hs] at hhead
          simp only [List.head?_cons, pymax, Option.some.injEq] at hhead
          exact ⟨tl, by rw [hhead]⟩
      rw [ht]
      have hR : pymax score (x :: xs ++ [a])
          = some (if score (pymaxGo score x xs) < score a then a
                  else pymaxGo score x xs) := by
        simp only [List.cons_append, pymax, Option.some.injEq]
        rw [pymaxGo_append score xs [a] x]
        rfl
      rw [hR, insertDesc]
      by_cases hra : score (pymaxGo score x xs) < score a
      · rw [if_pos hra, if_pos hra]; rfl
      · rw [if_neg hra, if_neg hra]; rfl
/-! ### Helper lemmas about the text normalizer -/

theorem collapseWS_cons_not_space (c : Char) (l : Str) (h : pyIsSpace c = false) :
    collapseWS (c :: l) = c :: collapseWS l := by
  cases l with
  | nil => simp [collapseWS, h]
  | cons d rest => simp [collapseWS, h]

theorem spaceOK_collapseWS : ∀ l : Str, SpaceOK (collapseWS l)
  | [] => ⟨by simp [collapseWS], by simp [collapseWS]⟩
  | [c] => by
    by_cases h : pyIsSpace c = true
    · exact ⟨by simp [collapseWS, h], by simp [collapseWS, h]⟩
    · exact ⟨by simp [collapseWS, h], by simp [collapseWS, h]⟩
  | c :: d :: rest => by
    have ih := spaceOK_collapseWS (d :: rest)
    by_cases hc : pyIsSpace c = true
    · by_cases hd : pyIsSpace d = true
      · simpa [collapseWS, hc, hd] using ih
      · rw [collapseWS, if_pos hc, if_neg (by simp [hd]),
          collapseWS_cons_not_space d rest (by simp [hd])]
        refine ⟨?_, ?_⟩
        · intro x hx hsx
          rcases List.mem_cons.mp hx with rfl | hx
          · rfl
          · rw [← collapseWS_cons_not_space d rest (by simp [hd])] at hx
            exact ih.1 x hx hsx
        · rw [List.chain'_cons']
          refine ⟨?_, ?_⟩
          · intro b hb
            simp only [List.head?_cons, Option.mem_def, Option.some.injEq] at hb
            subst hb
            simp [hd]
          · rw [← collapseWS_cons_not_space d rest (by simp [hd])]
            exact ih.2
    · rw [collapseWS, if_neg hc]
      refine ⟨?_, ?_⟩
      · intro x hx hsx
        rcases List.mem_cons.mp hx with rfl | hx
        · exact absurd hsx (by simp [hc])
        · exact ih.1 x hx hsx
      · rw [List.chain'_cons']
        exact ⟨fun b _ => by simp [hc], ih.2⟩

theorem spaceOK_tail {c : Char} {l : Str} (h : SpaceOK (c :: l)) : SpaceOK l :=
  ⟨fun x hx => h.1 x (List.mem_cons_of_mem c hx), h.2.tail⟩

theorem collapseWS_eq_self : ∀ l : Str, SpaceOK l → collapseWS l = l
  | [], _ => rfl
  | [c], h => by
    by_cases hc : pyIsSpace c = true
    · rw [collapseWS, if_pos hc, h.1 c (by simp) hc]
    · rw [collapseWS, if_neg hc]
  | c :: d :: rest, h => by
    have hcd : ¬(pyIsSpace c = true ∧ pyIsSpace d = true) :=
      (List.chain'_cons.mp h.2).1
    have ih := collapseWS_eq_self (d :: rest) (spaceOK_tail h)
    by_cases hc : pyIsSpace c = true
    · have hd : ¬ pyIsSpace d = true := fun hd => hcd ⟨hc, hd⟩
      rw [collapseWS, if_pos hc, if_neg hd, ih, h.1 c (by simp) hc]
    · rw [collapseWS, if_neg hc, ih]

theorem mem_collapseWS : ∀ l : Str, ∀ c' ∈ collapseWS l, c' = chSp ∨ c' ∈ l
  | [], c', h => by simp [collapseWS] at h
  | [c], c', h => by
    by_cases hc : pyIsSpace c = true
    · rw [collapseWS, if_pos hc] at h
      simp at h
      exact Or.inl h
    · rw [collapseWS, if_neg hc] at h
      simp at h
      simp [h]
  | c :: d :: rest, c', h => by
    by_cases hc : pyIsSpace c = true
    · by_cases hd : pyIsSpace d = true
      · rw [collapseWS, if_pos hc, if_pos hd] at h
        rcases mem_collapseWS (d :: rest) c' h with h' | h'
        · exact Or.inl h'
        · exact Or.inr (List.mem_cons_of_mem c h')
      · rw [collapseWS, if_pos hc, if_neg hd] at h
        rcases List.mem_cons.mp h with rfl | h'
        · exact Or.inl rfl
        · rcases mem_collapseWS (d :: rest) c' h' with h'' | h''
          · exact Or.inl h''
          · exact Or.inr (List.mem_cons_of_mem c h'')
    · rw [collapseWS, if_neg hc] at h
      rcases List.mem_cons.mp h with rfl | h'
      · exact Or.inr (List.mem_cons_self c' (d :: rest))
      · rcases mem_collapseWS (d :: rest) c' h' with h'' | h''
        · exact Or.inl h''
        · exact Or.inr (List.mem_cons_of_mem c h'')

theorem mem_dropWhile_imp {p : Char → Bool} {l : Str} {c : Char}
    (h : c ∈ l.dropWhile p) : c ∈ l := by
  rw [← List.takeWhile_append_dropWhile p l]
  exact List.mem_append.mpr (Or.inr h)

theorem mem_pyStrip {l : Str} {c : Char} (h : c ∈ pyStrip l) : c ∈ l := by
  rw [pyStrip, List.mem_reverse] at h
  exact mem_dropWhile_imp (List.mem_reverse.mp (mem_dropWhile_imp h))

theorem spaceOK_dropWhile {l : Str} (h : SpaceOK l) :
    SpaceOK (l.dropWhile pyIsSpace) := by
  refine ⟨fun c hc => h.1 c (mem_dropWhile_imp hc), ?_⟩
  have h2 := h.2
  rw [← List.takeWhile_append_dropWhile pyIsSpace l, List.chain'_append] at h2
  exact h2.2.1

theorem spaceOK_reverse {l : Str} (h : SpaceOK l) : SpaceOK l.reverse := by
  refine ⟨fun c hc => h.1 c (List.mem_reverse.mp hc), ?_⟩
  rw [List.chain'_reverse]
  exact h.2.imp fun {a b} hab hba => hab ⟨hba.2, hba.1⟩

theorem spaceOK_pyStrip {l : Str} (h : SpaceOK l) : SpaceOK (pyStrip l) :=
  spaceOK_reverse (spaceOK_dropWhile (spaceOK_reverse (spaceOK_dropWhile h)))

theorem dropWhile_idem (p : Char → Bool) : ∀ l : Str,
    (l.dropWhile p).dropWhile p = l.dropWhile p
  | [] => rfl
  | c :: cs => by
    by_cases hc : p c = true
    · rw [List.dropWhile_cons_of_pos hc, dropWhile_idem p cs]
    · rw [List.dropWhile_cons_of_neg (by simp_all),
        List.dropWhile_cons_of_neg (by simp_all)]

theorem head?_dropWhile {p : Char → Bool} : ∀ {l : Str} {b : Char},
    (l.dropWhile p).head? = some b → p b = false := by
  intro l
  induction l with
  | nil => intro b h; simp at h
  | cons c cs ih =>
    intro b h
    by_cases hc : p c = true
    · rw [List.dropWhile_cons_of_pos hc] at h
      exact ih h
    · rw [List.dropWhile_cons_of_neg (by simp_all)] at h
      simp at h
      subst h
      simp_all

theorem pyStrip_idem (l : Str) : pyStrip (pyStrip l) = pyStrip l := by
  have hstep : (pyStrip l).dropWhile pyIsSpace = pyStrip l := by
    cases hB : pyStrip l with
    | nil => simp
    | cons b bs =>
      have h1 : ((l.dropWhile pyIsSpace).reverse.dropWhile pyIsSpace).getLast?
          = some b := by
        have hh : (pyStrip l).head? = some b := by rw [hB]; rfl
        rwa [pyStrip, List.head?_reverse] at hh
      have hM : (l.dropWhile pyIsSpace).reverse.dropWhile pyIsSpace ≠ [] := by
        intro he
        rw [he] at h1
        simp at h1
      have h4 : (l.dropWhile pyIsSpace).reverse.getLast? = some b := by
        conv_lhs =>
          rw [← List.takeWhile_append_dropWhile pyIsSpace (l.dropWhile pyIsSpace).reverse]
        rw [List.getLast?_append_of_ne_nil _ hM]
        exact h1
      have h5 : (l.dropWhile pyIsSpace).head? = some b := by
        have h6 := List.head?_reverse (l.dropWhile pyIsSpace).reverse
        rw [List.reverse_reverse] at h6
        rw [h6]
        exact h4
      rw [List.dropWhile_cons_of_neg (by simp [head?_dropWhile h5])]
  have h7 : (pyStrip l).reverse = (l.dropWhile pyIsSpace).reverse.dropWhile pyIsSpace := by
    rw [pyStrip, List.reverse_reverse]
  rw [pyStrip, hstep, h7, dropWhile_idem, pyStrip]

theorem charOfNat_toNat (m : ℕ) (h : m < 55296) : (Char.ofNat m).toNat = m := by
  have hv : m.isValidChar := Or.inl h
  simp [Char.ofNat, hv]
  rfl

theorem nfkcChar_cases (c : Char) :
    (nfkcChar c).toNat ≤ 126 ∨
      (nfkcChar c = c ∧ ¬(0xFF01 ≤ c.toNat ∧ c.toNat ≤ 0xFF5E) ∧ c.toNat ≠ 0x3000) := by
  rw [nfkcChar]
  by_cases h1 : 0xFF01 ≤ c.toNat ∧ c.toNat ≤ 0xFF5E
  · rw [if_pos h1]
    left
    rw [charOfNat_toNat _ (by omega)]
    omega
  · rw [if_neg h1]
    by_cases h2 : c.toNat = 0x3000
    · rw [if_pos h2]
      left
      decide
    · rw [if_neg h2]
      exact Or.inr ⟨rfl, h1, h2⟩

theorem pyToLower_toNat (c : Char) :
    (pyToLower c).toNat
      = if 65 ≤ c.toNat ∧ c.toNat ≤ 90 then c.toNat + 32 else c.toNat := by
  rw [pyToLower]
  by_cases h : 65 ≤ c.toNat ∧ c.toNat ≤ 90
  · rw [if_pos h, if_pos h, charOfNat_toNat _ (by omega)]
  · rw [if_neg h, if_neg h]

theorem nfkcChar_eq_self_of_small {c : Char} (h : c.toNat ≤ 158) : nfkcChar c = c := by
  rw [nfkcChar, if_neg (by omega), if_neg (by omega)]

theorem pyToLower_eq_self_of_not_upper {c : Char}
    (h : ¬(65 ≤ c.toNat ∧ c.toNat ≤ 90)) : pyToLower c = c := by
  rw [pyToLower, if_neg h]

/-- After one NFKC-then-lower pass a character is a fixed point of both
`nfkcChar` and `pyToLower`, so a second normalization pass leaves it
unchanged. -/
theorem fixed_after_lower_nfkc (c : Char) :
    nfkcChar (pyToLower (nfkcChar c)) = pyToLower (nfkcChar c) ∧
      pyToLower (pyToLower (nfkcChar c)) = pyToLower (nfkcChar c) := by
  rcases nfkcChar_cases c with h | ⟨he, h1, h2⟩
  · constructor
    · apply nfkcChar_eq_self_of_small
      rw [pyToLower_toNat]
      split <;> omega
    · by_cases hu : 65 ≤ (nfkcChar c).toNat ∧ (nfkcChar c).toNat ≤ 90
      · apply pyToLower_eq_self_of_not_upper
        rw [pyToLower_toNat, if_pos hu]
        omega
      · rw [pyToLower_eq_self_of_not_upper hu, pyToLower_eq_self_of_not_upper hu]
  · rw [he]
    by_cases hu : 65 ≤ c.toNat ∧ c.toNat ≤ 90
    · have hlow : (pyToLower c).toNat = c.toNat + 32 := by
        rw [pyToLower_toNat, if_pos hu]
      constructor
      · exact nfkcChar_eq_self_of_small (by omega)
      · exact pyToLower_eq_self_of_not_upper (by omega)
    · rw [pyToLower_eq_self_of_not_upper hu]
      exact ⟨he, pyToLower_eq_self_of_not_upper hu⟩

theorem goodChar_chSp :
    nfkcChar chSp = chSp ∧ pyToLower chSp = chSp ∧ isKeptChar chSp = true := by
  refine ⟨?_, ?_, ?_⟩ <;> decide

theorem map_eq_self_of {f : Char → Char} :
    ∀ {l : Str}, (∀ c ∈ l, f c = c) → l.map f = l
  | [], _ => rfl
  | c :: cs, h => by
    rw [List.map_cons, h c (by simp),
      map_eq_self_of fun x hx => h x (List.mem_cons_of_mem c hx)]

/-- Every character surviving `normalizeText` is a fixed point of the NFKC
and lower-casing steps and passes the final keep-filter. -/
theorem normalizeText_chars (s : Str) :
    ∀ c ∈ normalizeText s,
      nfkcChar c = c ∧ pyToLower c = c ∧ isKeptChar c = true := by
  intro c hc
  rw [normalizeText] at hc
  by_cases hs : s = []
  · rw [if_pos hs] at hc
    simp at hc
  · rw [if_neg hs] at hc
    have hkept : isKeptChar c = true := List.of_mem_filter hc
    have hmem2 := mem_pyStrip (List.mem_of_mem_filter hc)
    rcases mem_collapseWS _ c hmem2 with rfl | hmem3
    · exact goodChar_chSp
    · rw [pyLower] at hmem3
      obtain ⟨y, hy, rfl⟩ := List.mem_map.mp hmem3
      obtain ⟨x, hx, rfl⟩ := List.mem_map.mp hy
      exact ⟨(fixed_after_lower_nfkc x).1, (fixed_after_lower_nfkc x).2, hkept⟩

/-- On input whose characters are already NFKC- and case-fixed and pass the
keep-filter, `normalizeText` reduces to collapsing whitespace and
stripping. -/
theorem normalizeText_of_good (y : Str)
    (h : ∀ c ∈ y, nfkcChar c = c ∧ pyToLower c = c ∧ isKeptChar c = true) :
    normalizeText y = pyStrip (collapseWS y) := by
  by_cases hy : y = []
  · subst hy
    rfl
  · rw [normalizeText, if_neg hy,
      show y.map nfkcChar = y from map_eq_self_of fun c hc => (h c hc).1,
      show pyLower y = y from map_eq_self_of fun c hc => (h c hc).2.1]
    apply List.filter_eq_self.mpr
    intro a ha
    rcases mem_collapseWS y a (mem_pyStrip ha) with rfl | hmem
    · exact goodChar_chSp.2.2
    · exact (h a hmem).2.2

/-! ### Claims -/

/-- C3, counterexample: `normalize_text` keeps the underscore (Python `\w`
includes it), and the underscore is neither alphanumeric nor whitespace, so
the output of `normalize_text` is not limited to alphanumeric-or-whitespace
characters. -/
theorem c3_counterexample :
    normalizeText [chUnder] = [chUnder] ∧ chUnder.isAlphanum = false ∧
      pyIsSpace chUnder = false :=
  ⟨by decide, by decide, by decide⟩

/-- C3 (amended): every character of `normalize_text`'s output is
alphanumeric, an underscore, or whitespace — the final stripping step keeps
exactly the word characters (which include the underscore) and
whitespace. -/
theorem c3_normalize_output_chars (s : Str) (c : Char) (h : c ∈ normalizeText s) :
    c.isAlphanum = true ∨ c = chUnder ∨ pyIsSpace c = true := by
  have hk := (normalizeText_chars s c h).2.2
  simp only [isKeptChar, pyIsWordChar, Bool.or_eq_true, beq_iff_eq] at hk
  rcases hk with (h1 | h1) | h1
  · exact Or.inl h1
  · exact Or.inr (Or.inl h1)
  · exact Or.inr (Or.inr h1)

theorem c3_witness :
    Char.isAlphanum 'a' = true ∨ 'a' = chUnder ∨ pyIsSpace 'a' = true :=
  c3_normalize_output_chars "a".toList 'a' (by decide)

/-- C8, counterexample: `normalize_text` is not idempotent — on `"a ,"` the
final punctuation-stripping step leaves a trailing space, which a second
pass then strips. -/
theorem c8_counterexample :
    normalizeText (normalizeText "a ,".toList) ≠ normalizeText "a ,".toList := by
  decide

/-- C8 (amended): two passes of `normalize_text` reach a fixed point — a
third application changes nothing.  Single-pass idempotence fails because
the final punctuation strip can leave doubled or trailing whitespace, but
that whitespace is cleaned up by one further pass. -/
theorem c8_normalize_two_pass_idem (s : Str) :
    normalizeText (normalizeText (normalizeText s))
      = normalizeText (normalizeText s) := by
  have h1 := normalizeText_chars s
  have h2 : normalizeText (normalizeText s) = pyStrip (collapseWS (normalizeText s)) :=
    normalizeText_of_good _ h1
  have h3 : ∀ c ∈ pyStrip (collapseWS (normalizeText s)),
      nfkcChar c = c ∧ pyToLower c = c ∧ isKeptChar c = true := by
    intro c hc
    rcases mem_collapseWS _ c (mem_pyStrip hc) with rfl | hm
    · exact goodChar_chSp
    · exact h1 c hm
  have h5 : SpaceOK (pyStrip (collapseWS (normalizeText s))) :=
    spaceOK_pyStrip (spaceOK_collapseWS _)
  rw [h2, normalizeText_of_good _ h3, collapseWS_eq_self _ h5]
  exact pyStrip_idem _

/-- C9: `findMatch` returns `none` — an ordinary value, not an error — both
for an empty target title (with any credit list) and for an empty credit
list (with any target title). -/
theorem c9_findMatch_absent (t : Str) (cs : List Credit) :
    findMatch [] cs = none ∧ findMatch t [] = none := by
  constructor
  · rw [findMatch, if_pos (Or.inl rfl)]
  · rw [findMatch, if_pos (Or.inr rfl)]

/-- C6: the similarity ratio is 0 whenever either input is empty, otherwise
it is the mean of the Jaccard coefficient of the two character sets and the
ratio of the shorter to the longer length, and it always lies in [0, 1]. -/
theorem c6_similarity_spec (a b : Str) :
    ((a = [] ∨ b = []) → similarityRatio a b = 0) ∧
      (a ≠ [] → b ≠ [] →
        similarityRatio a b
          = (((a.toFinset ∩ b.toFinset).card : ℚ)
              / ((a.toFinset ∪ b.toFinset).card : ℚ)
            + ((min a.length b.length : ℕ) : ℚ)
              / ((max a.length b.length : ℕ) : ℚ)) / 2) ∧
      0 ≤ similarityRatio a b ∧ similarityRatio a b ≤ 1 := by
  by_cases he : a = [] ∨ b = []
  · rw [similarityRatio, if_pos he]
    refine ⟨fun _ => rfl, fun ha hb => ?_, le_refl 0, by norm_num⟩
    rcases he with h | h
    · exact absurd h ha
    · exact absurd h hb
  · have ha : a ≠ [] := fun h => he (Or.inl h)
    have hb : b ≠ [] := fun h => he (Or.inr h)
    have hne : (a.toFinset ∪ b.toFinset).Nonempty :=
      ((List.toFinset_nonempty_iff a).mpr ha).mono Finset.subset_union_left
    have hUne : a.toFinset ∪ b.toFinset ≠ ∅ := Finset.nonempty_iff_ne_empty.mp hne
    rw [similarityRatio, if_neg he, if_neg hUne]
    have hU0 : (0:ℚ) < ((a.toFinset ∪ b.toFinset).card : ℚ) := by
      exact_mod_cast Finset.card_pos.mpr hne
    have hM0 : (0:ℚ) < ((max a.length b.length : ℕ) : ℚ) := by
      have hpos : 0 < a.length := List.length_pos.mpr ha
      exact_mod_cast lt_of_lt_of_le hpos (le_max_left _ _)
    have hJ1 : ((a.toFinset ∩ b.toFinset).card : ℚ)
        / ((a.toFinset ∪ b.toFinset).card : ℚ) ≤ 1 := by
      rw [div_le_one hU0]
      exact_mod_cast Finset.card_le_card Finset.inter_subset_union
    have hJ0 : (0:ℚ) ≤ ((a.toFinset ∩ b.toFinset).card : ℚ)
        / ((a.toFinset ∪ b.toFinset).card : ℚ) :=
      div_nonneg (Nat.cast_nonneg _) (le_of_lt hU0)
    have hL1 : ((min a.length b.length : ℕ) : ℚ)
        / ((max a.length b.length : ℕ) : ℚ) ≤ 1 := by
      rw [div_le_one hM0]
      exact_mod_cast le_trans (min_le_left _ _) (le_max_left _ _)
    have hL0 : (0:ℚ) ≤ ((min a.length b.length : ℕ) : ℚ)
        / ((max a.length b.length : ℕ) : ℚ) :=
      div_nonneg (Nat.cast_nonneg _) (le_of_lt hM0)
    refine ⟨fun h => absurd h he, fun _ _ => rfl, by linarith, by linarith⟩

theorem c6_witness :
    similarityRatio [] "a".toList = 0 ∧
      similarityRatio "ab".toList "b".toList
        = ((("ab".toList.toFinset ∩ "b".toList.toFinset).card : ℚ)
            / (("ab".toList.toFinset ∪ "b".toList.toFinset).card : ℚ)
          + ((min "ab".toList.length "b".toList.length : ℕ) : ℚ)
            / ((max "ab".toList.length "b".toList.length : ℕ) : ℚ)) / 2 ∧
      0 ≤ similarityRatio "ab".toList "b".toList ∧
      similarityRatio "ab".toList "b".toList ≤ 1 :=
  ⟨(c6_similarity_spec [] "a".toList).1 (Or.inl rfl),
    (c6_similarity_spec "ab".toList "b".toList).2.1 (by decide) (by decide),
    (c6_similarity_spec "ab".toList "b".toList).2.2⟩

/-- C5, counterexample: with an empty raw target title, `findMatch` returns
`none` even though a candidate's normalized title (the comma normalizes to
the empty string) equals the normalized target — the falsy-title guard
fires before the exact tier, so the claim fails for the empty target
title. -/
theorem c5_counterexample :
    normalizeText (getTitle ⟨some ",".toList, none, []⟩) = normalizeText [] ∧
      findMatch [] [⟨some ",".toList, none, []⟩] = none ∧
      (none : Option Credit) ≠ some ⟨some ",".toList, none, []⟩ := by
  refine ⟨by decide, ?_, by decide⟩
  rw [findMatch, if_pos (Or.inl rfl)]

/-- C5 (amended): for every non-empty target title, if some candidate's
normalized title equals the normalized target then `findMatch` returns the
first such candidate, regardless of any other candidate's similarity
score. -/
theorem c5_exact_tier_wins (t : Str) (cs : List Credit) (ht : t ≠ [])
    (hex : ∃ c ∈ cs, normalizeText (getTitle c) = normalizeText t) :
    findMatch t cs
      = cs.find? fun c => decide (normalizeText (getTitle c) = normalizeText t) := by
  have hcs : cs ≠ [] := by
    rcases hex with ⟨c, hc, _⟩
    intro h0
    subst h0
    simp at hc
  rw [findMatch_eq t cs ht hcs]
  have hsome : (cs.find? fun c =>
      decide (normalizeText (getTitle c) = normalizeText t)).isSome := by
    rw [List.find?_isSome]
    rcases hex with ⟨c, hc, hce⟩
    exact ⟨c, hc, by simpa using hce⟩
  obtain ⟨c, hc⟩ := Option.isSome_iff_exists.mp hsome
  have hex2 : exactTier (normalizeText t) cs = some c := by
    rw [exactTier_eq_find?]
    exact hc
  rw [hex2, hc]

theorem c5_witness :
    findMatch "A".toList [⟨some "a".toList, none, []⟩]
      = [⟨some "a".toList, none, []⟩].find? fun c =>
          decide (normalizeText (getTitle c) = normalizeText "A".toList) :=
  c5_exact_tier_wins "A".toList [⟨some "a".toList, none, []⟩] (by decide)
    ⟨⟨some "a".toList, none, []⟩, by decide, by decide⟩

/-- C4, counterexample: a candidate with a missing title IS returned by the
exact tier when the target title normalizes to the empty string (here the
raw target is the comma, which is truthy but normalizes to empty), and the
track-number tier is not even applicable since the target has no leading
digits. -/
theorem c4_counterexample :
    findMatch ",".toList [⟨none, none, []⟩] = some ⟨none, none, []⟩ ∧
      (⟨none, none, []⟩ : Credit).title = none ∧
      ",".toList.takeWhile Char.isDigit = [] := by
  refine ⟨by decide, rfl, by decide⟩

/-- C4 (amended): whenever the target's normalized title is non-empty, a
candidate with a missing or empty title can only be the result of the
track-number tier; the similarity and substring checks always skip such
candidates, and the exact tier can select one only when the target
normalizes to the empty string. -/
theorem c4_titleless_only_number_tier (t : Str) (cs : List Credit) (c : Credit)
    (hnt : normalizeText t ≠ []) (h : findMatch t cs = some c)
    (hc : getTitle c = []) : numberTier t cs = some c := by
  have ht : t ≠ [] := by
    intro h0
    subst h0
    exact hnt rfl
  have hcs : cs ≠ [] := by
    intro h0
    subst h0
    rw [findMatch, if_pos (Or.inr rfl)] at h
    exact absurd h (by simp)
  rw [findMatch_eq t cs ht hcs] at h
  cases hex : exactTier (normalizeText t) cs with
  | some c' =>
    rw [hex] at h
    obtain rfl : c' = c := by simpa using h
    have he := exactTier_some hex
    rw [hc] at he
    rw [show normalizeText ([] : Str) = [] from rfl] at he
    exact absurd he.symm hnt
  | none =>
    rw [hex] at h
    cases hfz : fuzzyTier (normalizeText t) cs with
    | some c' =>
      rw [hfz] at h
      obtain rfl : c' = c := by simpa using h
      have hne := fuzzyTier_some_nonempty hfz
      rw [hc] at hne
      exact absurd rfl hne
    | none =>
      rw [hfz] at h
      exact h

theorem c4_witness :
    numberTier "1".toList [⟨none, some "1".toList, []⟩]
      = some ⟨none, some "1".toList, []⟩ :=
  c4_titleless_only_number_tier "1".toList [⟨none, some "1".toList, []⟩]
    ⟨none, some "1".toList, []⟩ (by decide) (by decide) rfl

/-- C1, counterexample: the similarity and substring checks are interleaved
in a single pass, so a substring-only candidate earlier in the list
(`credSub`: similarity 5/13 < 0.8, but the target is a prefix of its
title) is returned in preference to a later candidate whose similarity is
10/11 ≥ 0.8 (`credSim`) — the claimed tier order does not hold. -/
theorem c1_counterexample :
    (4:ℚ)/5 ≤ similarityRatio (normalizeText tgtC1) (normalizeText (getTitle credSim)) ∧
      similarityRatio (normalizeText tgtC1) (normalizeText (getTitle credSub)) < (4:ℚ)/5 ∧
      isSubstr (normalizeText tgtC1) (normalizeText (getTitle credSub)) = true ∧
      findMatch tgtC1 [credSub, credSim] = some credSub ∧
      credSub ≠ credSim := by
  have ha : normalizeText tgtC1 = tgtC1 := by decide
  have hb : normalizeText (getTitle credSub) = "abcdefghijklmnopqrstuvwxyz".toList := by
    decide
  have hcn : normalizeText (getTitle credSim) = "abcdefghik".toList := by decide
  have hs1 : similarityRatio tgtC1 "abcdefghijklmnopqrstuvwxyz".toList = 5/13 := by
    have e1 : (tgtC1.toFinset ∩ "abcdefghijklmnopqrstuvwxyz".toList.toFinset).card = 10 := by
      decide
    have e2 : (tgtC1.toFinset ∪ "abcdefghijklmnopqrstuvwxyz".toList.toFinset).card = 26 := by
      decide
    have e3 : tgtC1.length = 10 := by decide
    have e4 : "abcdefghijklmnopqrstuvwxyz".toList.length = 26 := by decide
    rw [similarityRatio, if_neg (by decide), if_neg (by decide), e1, e2, e3, e4]
    norm_num
  have hs2 : similarityRatio tgtC1 "abcdefghik".toList = 10/11 := by
    have e1 : (tgtC1.toFinset ∩ "abcdefghik".toList.toFinset).card = 9 := by decide
    have e2 : (tgtC1.toFinset ∪ "abcdefghik".toList.toFinset).card = 11 := by decide
    have e3 : tgtC1.length = 10 := by decide
    have e4 : "abcdefghik".toList.length = 10 := by decide
    rw [similarityRatio, if_neg (by decide), if_neg (by decide), e1, e2, e3, e4]
    norm_num
  refine ⟨?_, ?_, ?_, ?_, by decide⟩
  · rw [ha, hcn, hs2]
    norm_num
  · rw [ha, hb, hs1]
    norm_num
  · rw [ha, hb]
    decide
  · rw [findMatch, if_neg (by decide),
      show exactTier (normalizeText tgtC1) [credSub, credSim] = none from by decide]
    have hf : fuzzyTier (normalizeText tgtC1) [credSub, credSim] = some credSub := by
      rw [ha, fuzzyTier, hb, if_neg (by decide),
        if_neg (by rw [hs1]; norm_num), if_pos (by decide)]
    rw [hf]

/-- C1 (amended): the matcher makes one pass for the similarity and
substring checks together: when the target is non-empty and no exact match
exists, `findMatch` returns the first candidate in list order that passes
the per-candidate test (non-empty normalized title, and similarity ≥ 0.8
or substring either way) — not the first similarity hit over the whole
list. -/
theorem c1_single_pass (t : Str) (cs : List Credit) (c : Credit) (ht : t ≠ [])
    (hex : exactTier (normalizeText t) cs = none)
    (hf : cs.find? (fuzzyPred (normalizeText t)) = some c) :
    findMatch t cs = some c := by
  have hcs : cs ≠ [] := by
    intro h0
    subst h0
    simp at hf
  rw [findMatch_eq t cs ht hcs, hex, ← fuzzyTier_eq_find?] at *
  rw [hf]

theorem c1_witness : findMatch tgtC1 [credSub, credSim] = some credSub := by
  have hb : normalizeText (getTitle credSub) = "abcdefghijklmnopqrstuvwxyz".toList := by
    decide
  have hf : List.find? (fuzzyPred (normalizeText tgtC1)) [credSub, credSim]
      = some credSub := by
    have ha : normalizeText tgtC1 = tgtC1 := by decide
    rw [ha]
    apply List.find?_cons_of_pos
    rw [fuzzyPred, hb,
      show isSubstr tgtC1 "abcdefghijklmnopqrstuvwxyz".toList = true from by decide,
      Bool.or_true, Bool.true_or, Bool.and_true]
    decide
  exact c1_single_pass tgtC1 [credSub, credSim] credSub (by decide) (by decide) hf

/-- C2, counterexample: on the specification's own example the artwork
score is 200, not 300 — the album bonus is missed because the album name
contains spaces while the file name uses underscores. -/
theorem c2_counterexample :
    calculate_artwork_score qPath qAlbum qArtist qMetas = 200 ∧ (200 : ℤ) ≠ 300 :=
  ⟨by decide, by decide⟩

/-- C2 (amended): on candidateFileName "Queen_A_Night_At_The_Opera.jpg",
albumName "A Night at the Opera", artistName "Queen" and five tracks all by
"Queen", the score is 100 (artist in file name) + 0 (the case-folded album
name, which contains spaces, is not a substring of the underscore-separated
file name) + 5 × 10 (tracks) + 50 (all tracks match the artist) = 200. -/
theorem c2_score_breakdown :
    isSubstr (pyLower qArtist) (pyLower (basename qPath)) = true ∧
      isSubstr (pyLower qAlbum) (pyLower (basename qPath)) = false ∧
      calculate_artwork_score qPath qAlbum qArtist qMetas = 100 + 0 + 5 * 10 + 50 :=
  ⟨by decide, by decide, by decide⟩

/-- C10: with an empty related-track list and a non-empty artist name, the
all-tracks-match comparison `0 == 0` holds vacuously, so the +50 bonus is
still granted: the score is 50 plus whatever file-name substring bonuses
apply. -/
theorem c10_empty_tracks_bonus (path album artist : Str) (h : artist ≠ []) :
    calculate_artwork_score path album artist []
      = (if isSubstr (pyLower artist) (pyLower (basename path)) = true then 100 else 0)
        + (if album ≠ [] ∧ isSubstr (pyLower album) (pyLower (basename path)) = true
            then 100 else 0)
        + 50 := by
  rw [calculate_artwork_score]
  simp [h]

theorem c10_witness :
    calculate_artwork_score "x_q.jpg".toList [] "q".toList []
      = (if isSubstr (pyLower "q".toList) (pyLower (basename "x_q.jpg".toList)) = true
          then 100 else 0)
        + (if ([] : Str) ≠ []
              ∧ isSubstr (pyLower []) (pyLower (basename "x_q.jpg".toList)) = true
            then 100 else 0)
        + 50 :=
  c10_empty_tracks_bonus "x_q.jpg".toList [] "q".toList (by decide)

/-- C7: both best-candidate selections — the stable descending sort of
`_select_best_match` and the `max(key=score)` of
`_collect_and_select_best_artwork` — return `none` exactly on the empty
list, and on a non-empty list both return the same single winner: the first
element in input order among those of maximal score. -/
theorem c7_selection_first_max {α : Type} (score : α → ℤ) (l : List α) :
    (select_best_match score l = none ↔ l = []) ∧
      (pymax score l = none ↔ l = []) ∧
      (l ≠ [] → ∃ x, select_best_match score l = some x ∧ pymax score l = some x ∧
        x ∈ l ∧ (∀ y ∈ l, score y ≤ score x) ∧
        l.find? (fun y => decide (score x ≤ score y)) = some x) := by
  refine ⟨?_, ?_, ?_⟩
  · cases l with
    | nil => simp [select_best_match]
    | cons x xs =>
      rw [show select_best_match score (x :: xs) = (sortDesc score (x :: xs)).head?
          from rfl,
        sortDesc_head? score _ (by simp)]
      simp [pymax]
  · cases l with
    | nil => simp [pymax]
    | cons x xs => simp [pymax]
  · intro hl
    obtain ⟨x, xs, rfl⟩ : ∃ x xs, l = x :: xs := by
      cases l with
      | nil => exact absurd rfl hl
      | cons x xs => exact ⟨x, xs, rfl⟩
    refine ⟨pymaxGo score x xs, ?_, rfl, ?_, ?_, ?_⟩
    · rw [show select_best_match score (x :: xs) = (sortDesc score (x :: xs)).head?
          from rfl,
        sortDesc_head? score _ (by simp)]
      rfl
    · exact List.mem_of_find?_eq_some (pymaxGo_find? score xs x)
    · intro y hy
      rcases List.mem_cons.mp hy with rfl | hy
      · exact (pymaxGo_le score xs y).1
      · exact (pymaxGo_le score xs x).2 y hy
    · exact pymaxGo_find? score xs x

theorem c7_witness :
    ∃ x, select_best_match Prod.snd [((1:ℤ), (5:ℤ)), (2, 5), (3, 3)] = some x ∧
      pymax Prod.snd [((1:ℤ), (5:ℤ)), (2, 5), (3, 3)] = some x ∧
      x ∈ [((1:ℤ), (5:ℤ)), (2, 5), (3, 3)] ∧
      (∀ y ∈ [((1:ℤ), (5:ℤ)), (2, 5), (3, 3)], Prod.snd y ≤ Prod.snd x) ∧
      List.find? (fun y => decide (Prod.snd x ≤ Prod.snd y))
        [((1:ℤ), (5:ℤ)), (2, 5), (3, 3)] = some x :=
  (c7_selection_first_max Prod.snd [((1:ℤ), (5:ℤ)), (2, 5), (3, 3)]).2.2 (by decide)
